import Mathlib

/-!
Verification of the realtime voice-session handler of the Voice-Game-Master
repository (`src/hooks/use-gemini-live.ts`).

The hook's mutable refs and React state are embedded as one record `GState`.
The `onmessage` callback of the live session is embedded as a function over
that record, processing the optional components of a server message in the
order the source does: audio data, output transcription, input transcription,
turn-complete, interrupted.  `disconnect` and the error/close callbacks are
embedded as further functions.  Times and durations are rationals; decoded
audio buffers are represented by their durations; scheduled playback units
and stop calls are recorded in ghost log fields (`playLog`, `stopped`) so
that scheduling and teardown behaviour is observable.  Message ids and
timestamps (`Date.now()` in the source) are modelled by a monotone counter.
-/

namespace VGM

/-- Speaker role of a transcript message (`Message.role` in src/unnamed/part_001). -/
inductive Role
  | user
  | model
  | system
deriving DecidableEq

/-- A transcript message (interface `Message` in src/unnamed/part_001).
`pending` embeds the `isPartial` flag: the message is still being appended to. -/
structure Message where
  id : Nat
  role : Role
  text : String
  timestamp : Nat
  pending : Bool
deriving DecidableEq

/-- The state held by the `useGeminiLive` hook: React state (`isConnected`,
`messages`, `volume`, `error`) and the mutable refs.  Resource refs
(audio contexts, media stream, script processor, session promise) are
embedded as presence flags.  `sources` is the set of active playback units
(a JS `Set` iterated in insertion order, hence a list of ids);
`playLog` and `stopped` are ghost logs of scheduled units (start, duration)
and of stopped unit ids. -/
structure GState where
  isConnected : Bool
  messages : List Message
  volume : ℚ
  error : Option String
  inputCtx : Bool
  outputCtx : Bool
  mediaStream : Bool
  processor : Bool
  session : Bool
  nextStartTime : ℚ
  sources : List Nat
  currentInput : String
  currentOutput : String
  nextId : Nat
  nextSrcId : Nat
  playLog : List (ℚ × ℚ)
  stopped : List Nat

/-- A server message as consumed by `onmessage`: the optional decoded audio
part is represented by its duration; the two transcription parts by their
texts; plus the `turnComplete` and `interrupted` flags. -/
structure SMsg where
  audioDur : Option ℚ := none
  outputText : Option String := none
  inputText : Option String := none
  turnComplete : Bool := false
  interrupted : Bool := false

/-- A freshly created partial message (`{ id: Date.now().toString(), role, text,
timestamp: new Date(), isPartial: true }` in the source, with id and timestamp
modelled by the counter). -/
def newMsg (n : Nat) (r : Role) (t : String) : Message :=
  ⟨n, r, t, n, true⟩

/-- The per-role accumulation buffer: `currentOutputTranscriptionRef` for the
model role, `currentInputTranscriptionRef` for the user role. -/
def bufOf (r : Role) (s : GState) : String :=
  match r with
  | .model => s.currentOutput
  | .user => s.currentInput
  | .system => ""

/-- Write the per-role accumulation buffer. -/
def setBuf (r : Role) (b : String) (s : GState) : GState :=
  match r with
  | .model => { s with currentOutput := b }
  | .user => { s with currentInput := b }
  | .system => s

/-- The `setMessages(prev => ...)` update for one transcription fragment:
if the most recent message has the same role and is still partial, replace
its text with the updated buffer `b`; otherwise append a fresh partial
message carrying `b`. -/
def applyFrag (r : Role) (b : String) (s : GState) : GState :=
  match s.messages.getLast? with
  | some last =>
    if last.role = r ∧ last.pending = true then
      { s with messages := s.messages.dropLast ++ [{ last with text := b }] }
    else
      { s with messages := s.messages ++ [newMsg s.nextId r b], nextId := s.nextId + 1 }
  | none =>
    { s with messages := s.messages ++ [newMsg s.nextId r b], nextId := s.nextId + 1 }

/-- Process one transcription fragment of role `r` with text `t`: the source
guard `if (message.serverContent?...?.text)` skips an empty text; otherwise
the buffer is extended first and the message list updated with the new
buffer value. -/
def fragStep (r : Role) (t : String) (s : GState) : GState :=
  if t = "" then s
  else setBuf r (bufOf r s ++ t) (applyFrag r (bufOf r s ++ t) s)

/-- Dispatch on the optional transcription component of a server message. -/
def handleText (r : Role) (o : Option String) (s : GState) : GState :=
  match o with
  | none => s
  | some t => fragStep r t s

/-- Schedule one decoded audio unit of duration `d` at
`max(nextStartTime, currentTime)`, advance `nextStartTime` by `d`, and add
the unit to the tracked set (lines 144-167 of the source). -/
def scheduleAudio (now d : ℚ) (s : GState) : GState :=
  { s with
    nextStartTime := max s.nextStartTime now + d,
    sources := s.sources ++ [s.nextSrcId],
    nextSrcId := s.nextSrcId + 1,
    playLog := s.playLog ++ [(max s.nextStartTime now, d)] }

/-- Dispatch on the optional audio component; the source requires the output
audio context to be present (`base64Audio && outputAudioContextRef.current`). -/
def handleAudio (now : ℚ) (o : Option ℚ) (s : GState) : GState :=
  match o with
  | none => s
  | some d => if s.outputCtx = true then scheduleAudio now d s else s

/-- `prev.map(m => ({ ...m, isPartial: false }))`. -/
def finalizeAll (l : List Message) : List Message :=
  l.map (fun m => { m with pending := false })

/-- The turn-complete handler: finalize all messages and reset both
accumulation buffers. -/
def handleTurnComplete (b : Bool) (s : GState) : GState :=
  if b then
    { s with messages := finalizeAll s.messages, currentInput := "", currentOutput := "" }
  else s

/-- The interruption handler: stop every tracked playback unit, clear the
tracked set, reset the timeline to the current playback clock (when the
output context is present), finalize all messages and reset both buffers. -/
def handleInterrupted (now : ℚ) (b : Bool) (s : GState) : GState :=
  if b then
    { s with
      stopped := s.stopped ++ s.sources,
      sources := [],
      nextStartTime := if s.outputCtx = true then now else s.nextStartTime,
      messages := finalizeAll s.messages,
      currentInput := "", currentOutput := "" }
  else s

/-- The `onmessage` callback: process the components of one server message in
source order (audio, output transcription, input transcription, turn
complete, interrupted).  `now` is the output context's `currentTime` during
this callback. -/
def onmessage (now : ℚ) (m : SMsg) (s : GState) : GState :=
  handleInterrupted now m.interrupted
    (handleTurnComplete m.turnComplete
      (handleText Role.user m.inputText
        (handleText Role.model m.outputText
          (handleAudio now m.audioDur s))))

/-- A session event: a server message (with the playback clock at the moment
it is handled) or the `ended` listener of a playback unit removing it from
the tracked set. -/
inductive Ev
  | srv (now : ℚ) (m : SMsg)
  | ended (id : Nat)

/-- Process one session event. -/
def step (s : GState) (e : Ev) : GState :=
  match e with
  | .srv now m => onmessage now m s
  | .ended i => { s with sources := s.sources.erase i }

/-- Process a list of session events in order. -/
def run (s : GState) (es : List Ev) : GState :=
  match es with
  | [] => s
  | e :: es => run (step s e) es

/-- A device/playback/session teardown operation performed by `disconnect`. -/
inductive Op
  | closeInputCtx
  | closeOutputCtx
  | stopMediaTracks
  | disconnectProcessor
  | stopSource (id : Nat)
  | closeSession
deriving DecidableEq

/-- The `disconnect` callback: close both audio contexts, stop the media
stream tracks, disconnect the script processor, stop and clear all playback
units, close the session, reset `isConnected`, `volume` and both
transcription buffers.  Each step is guarded on the ref being non-null and
nulls it; the performed operations are returned alongside the new state.
Every step of the source is wrapped so that teardown never throws; the
embedding is a total function. -/
def disconnectRun (s : GState) : GState × List Op :=
  let ops :=
    (if s.inputCtx then [Op.closeInputCtx] else [])
    ++ (if s.outputCtx then [Op.closeOutputCtx] else [])
    ++ (if s.mediaStream then [Op.stopMediaTracks] else [])
    ++ (if s.processor then [Op.disconnectProcessor] else [])
    ++ s.sources.map Op.stopSource
    ++ (if s.session then [Op.closeSession] else [])
  ({ s with
      inputCtx := false, outputCtx := false, mediaStream := false,
      processor := false, session := false,
      stopped := s.stopped ++ s.sources, sources := [],
      isConnected := false, volume := 0,
      currentInput := "", currentOutput := "" },
   ops)

/-- The state after `disconnect`. -/
def disconnect (s : GState) : GState :=
  (disconnectRun s).1

/-- The device/playback/session operations performed by `disconnect`. -/
def disconnectOps (s : GState) : List Op :=
  (disconnectRun s).2

/-- The initial hook state: nothing connected, no resources acquired. -/
def initHook : GState :=
  ⟨false, [], 0, none, false, false, false, false, false, 0, [], "", "", 0, 0, [], []⟩

/-- The state after a successful `connect` followed by the `onopen` callback:
`connect` first calls `disconnect`, clears the error, acquires the audio
contexts and the microphone stream and opens the session; `onopen` sets
`isConnected` and installs the script processor. -/
def connectOpen (s : GState) : GState :=
  { disconnect s with
      error := none,
      inputCtx := true, outputCtx := true, mediaStream := true,
      session := true, processor := true, isConnected := true }

/-- The live-session state reached from a fresh page load. -/
def init : GState :=
  connectOpen initHook

/-- Fallback error text in the `connect` catch block. -/
def connectFallback : String :=
  "Failed to connect"

/-- Fallback error text in the `onerror` callback. -/
def errorFallback : String :=
  "An error occurred"

/-- `e.message || fallback`: an absent or empty message falls back. -/
def errText (m : Option String) (fb : String) : String :=
  match m with
  | none => fb
  | some t => if t = "" then fb else t

/-- The `onerror` callback: record the message and drop the connected flag. -/
def onerror (m : Option String) (s : GState) : GState :=
  { s with error := some (errText m errorFallback), isConnected := false }

/-- The `onclose` callback: drop the connected flag. -/
def onclose (s : GState) : GState :=
  { s with isConnected := false }

/-- The catch block of `connect`, reached when session acquisition fails
(e.g. microphone permission denied, or a synchronous SDK failure).
`connect` has already torn down the previous session and recreated the audio
contexts; `acquired` records whether the microphone stream had been obtained
before the failure.  The handler records the error and leaves the state
disconnected; no retry is attempted. -/
def connectFailure (acquired : Bool) (m : Option String) (s : GState) : GState :=
  { disconnect s with
      inputCtx := true, outputCtx := true, mediaStream := acquired,
      error := some (errText m connectFallback),
      isConnected := false }

/-- RMS amplitude of one captured frame
(`Math.sqrt(sum / inputData.length)` in `onaudioprocess`). -/
noncomputable def rmsOf (xs : List ℝ) : ℝ :=
  Real.sqrt ((xs.map (fun x => x * x)).sum / (xs.length : ℝ))

/-- The loudness value emitted for the visualizer:
`Math.min(1, rms * 5)`. -/
noncomputable def frameVolume (xs : List ℝ) : ℝ :=
  min 1 (rmsOf xs * 5)

/-- Clamp to the unit interval. -/
noncomputable def clamp01 (x : ℝ) : ℝ :=
  max 0 (min 1 x)

/-- Concatenation of fragment texts in arrival order. -/
def concatTexts (ts : List String) : String :=
  ts.foldr (fun a b => a ++ b) ""

/-- A server message consisting of a single transcription fragment for the
given speaker role. -/
def fragSMsg (r : Role) (t : String) : SMsg :=
  match r with
  | .model => { outputText := some t }
  | .user => { inputText := some t }
  | .system => {}

/-- A pure fragment stream for one role, with no intervening turn-complete or
interruption events. -/
def fragEvs (r : Role) (ts : List String) : List Ev :=
  ts.map (fun t => Ev.srv 0 (fragSMsg r t))

/-- The (pending, role) signature of a message; the transcript invariants
only depend on it. -/
def msig (m : Message) : Bool × Role :=
  (m.pending, m.role)

/-- The fields of a message that the source never mutates after creation:
fragment merging rewrites only `text`, finalization rewrites only
`pending` (`isPartial`), so id, role and creation timestamp identify a
message for the whole life of the transcript. -/
def mkey (m : Message) : Nat × Role × Nat :=
  (m.id, m.role, m.timestamp)

/-- No partial message of role `r` occurs in the list. -/
def pendingFreeFor (r : Role) (l : List Message) : Bool :=
  l.all (fun m => !(decide (m.role = r) && m.pending))

/-- Over the (pending, role) signatures: the partial messages form a suffix
of the transcript and adjacent partial messages have distinct roles. -/
def pendingTailAlt : List (Bool × Role) → Bool
  | [] => true
  | [_] => true
  | a :: b :: rest =>
    (!a.1 || (b.1 && !(decide (a.2 = b.2)))) && pendingTailAlt (b :: rest)

/-- Message ids are strictly increasing along the transcript
(insertion order). -/
def idsChain (l : List Message) : Prop :=
  List.Chain' (· < ·) (l.map Message.id)

/-- All message ids are below the id counter. -/
def msgIdsLt (n : Nat) (l : List Message) : Prop :=
  ∀ m ∈ l, m.id < n

/-- The transcript invariant maintained by the session event loop. -/
def Inv (s : GState) : Prop :=
  idsChain s.messages
  ∧ pendingTailAlt (s.messages.map msig) = true
  ∧ msgIdsLt s.nextId s.messages
  ∧ (bufOf Role.model s = "" → pendingFreeFor Role.model s.messages = true)
  ∧ (bufOf Role.user s = "" → pendingFreeFor Role.user s.messages = true)

/-- An event that neither schedules audio nor interrupts playback. -/
def quiet (e : Ev) : Bool :=
  match e with
  | .srv _ m => m.audioDur.isNone && !m.interrupted
  | .ended _ => true

theorem str_append_ne_empty (s t : String) (h : t ≠ "") : s ++ t ≠ "" := by
  intro hc
  apply h
  have hd := congrArg String.data hc
  rw [String.data_append] at hd
  have h2 := List.append_eq_nil.mp hd
  cases t with
  | mk d =>
    simp only [String.data] at h2
    rw [show ("" : String) = ⟨[]⟩ from rfl]
    exact congrArg String.mk h2.2

theorem errText_ne_empty (m : Option String) (fb : String) (h : fb ≠ "") :
    errText m fb ≠ "" := by
  cases m with
  | none => simpa [errText]
  | some t =>
    by_cases ht : t = ""
    · simpa [errText, ht] using h
    · simp [errText, ht]

theorem setBuf_messages (r : Role) (b : String) (s : GState) :
    (setBuf r b s).messages = s.messages := by
  cases r <;> rfl

theorem setBuf_nextId (r : Role) (b : String) (s : GState) :
    (setBuf r b s).nextId = s.nextId := by
  cases r <;> rfl

theorem bufOf_setBuf (r : Role) (hr : r = Role.user ∨ r = Role.model)
    (b : String) (s : GState) : bufOf r (setBuf r b s) = b := by
  rcases hr with rfl | rfl <;> rfl

theorem applyFrag_extend (r : Role) (b : String) (s : GState) (l : List Message)
    (last : Message) (hm : s.messages = l ++ [last])
    (h : last.role = r ∧ last.pending = true) :
    applyFrag r b s = { s with messages := l ++ [{ last with text := b }] } := by
  unfold applyFrag
  rw [hm, List.getLast?_concat, List.dropLast_concat]
  simp only [if_pos h]

theorem applyFrag_new (r : Role) (b : String) (s : GState)
    (hlast : ∀ a, s.messages.getLast? = some a → ¬(a.role = r ∧ a.pending = true)) :
    applyFrag r b s
      = { s with messages := s.messages ++ [newMsg s.nextId r b],
                 nextId := s.nextId + 1 } := by
  unfold applyFrag
  cases h : s.messages.getLast? with
  | none => rfl
  | some a => simp only [if_neg (hlast a h)]

theorem fragStep_empty (r : Role) (s : GState) : fragStep r "" s = s := by
  simp [fragStep]

theorem fragStep_extend (r : Role) (hr : r = Role.user ∨ r = Role.model)
    (t : String) (ht : t ≠ "") (s : GState) (l : List Message) (last : Message)
    (hm : s.messages = l ++ [last]) (hrole : last.role = r)
    (hp : last.pending = true) :
    (fragStep r t s).messages = l ++ [{ last with text := bufOf r s ++ t }]
    ∧ (fragStep r t s).nextId = s.nextId
    ∧ bufOf r (fragStep r t s) = bufOf r s ++ t := by
  unfold fragStep
  rw [if_neg ht, applyFrag_extend r (bufOf r s ++ t) s l last hm ⟨hrole, hp⟩]
  exact ⟨setBuf_messages r _ _, setBuf_nextId r _ _, bufOf_setBuf r hr _ _⟩

theorem fragStep_new (r : Role) (hr : r = Role.user ∨ r = Role.model)
    (t : String) (ht : t ≠ "") (s : GState)
    (hlast : ∀ a, s.messages.getLast? = some a → ¬(a.role = r ∧ a.pending = true)) :
    (fragStep r t s).messages = s.messages ++ [newMsg s.nextId r (bufOf r s ++ t)]
    ∧ (fragStep r t s).nextId = s.nextId + 1
    ∧ bufOf r (fragStep r t s) = bufOf r s ++ t := by
  unfold fragStep
  rw [if_neg ht, applyFrag_new r (bufOf r s ++ t) s hlast]
  exact ⟨setBuf_messages r _ _, setBuf_nextId r _ _, bufOf_setBuf r hr _ _⟩

theorem step_frag (r : Role) (hr : r = Role.user ∨ r = Role.model)
    (now : ℚ) (t : String) (s : GState) :
    step s (Ev.srv now (fragSMsg r t)) = fragStep r t s := by
  rcases hr with rfl | rfl <;> rfl

theorem run_cons (s : GState) (e : Ev) (es : List Ev) :
    run s (e :: es) = run (step s e) es := rfl

theorem fragEvs_cons (r : Role) (t : String) (ts : List String) :
    fragEvs r (t :: ts) = Ev.srv 0 (fragSMsg r t) :: fragEvs r ts := rfl

theorem concatTexts_cons (t : String) (ts : List String) :
    concatTexts (t :: ts) = t ++ concatTexts ts := rfl

theorem frags_extend (r : Role) (hr : r = Role.user ∨ r = Role.model) :
    ∀ (ts : List String) (s : GState) (l : List Message) (last : Message),
    s.messages = l ++ [last] → last.role = r → last.pending = true →
    last.text = bufOf r s →
    (run s (fragEvs r ts)).messages
        = l ++ [{ last with text := last.text ++ concatTexts ts }]
    ∧ bufOf r (run s (fragEvs r ts)) = bufOf r s ++ concatTexts ts
    ∧ (run s (fragEvs r ts)).nextId = s.nextId := by
  intro ts
  induction ts with
  | nil =>
    intro s l last hm hrole hp htext
    refine ⟨?_, ?_, rfl⟩
    · rw [show concatTexts [] = "" from rfl, String.append_empty]
      exact hm
    · rw [show concatTexts [] = "" from rfl, String.append_empty]
      rfl
  | cons t ts ih =>
    intro s l last hm hrole hp htext
    rw [fragEvs_cons, run_cons, step_frag r hr 0 t s]
    by_cases ht : t = ""
    · subst ht
      rw [fragStep_empty]
      obtain ⟨h1, h2, h3⟩ := ih s l last hm hrole hp htext
      refine ⟨?_, ?_, h3⟩
      · rw [h1, concatTexts_cons, String.empty_append]
      · rw [h2, concatTexts_cons, String.empty_append]
    · obtain ⟨e1, e2, e3⟩ := fragStep_extend r hr t ht s l last hm hrole hp
      obtain ⟨h1, h2, h3⟩ :=
        ih (fragStep r t s) l { last with text := bufOf r s ++ t } e1 hrole hp
          (by rw [e3])
      refine ⟨?_, ?_, ?_⟩
      · rw [h1, concatTexts_cons, htext, String.append_assoc]
      · rw [h2, e3, concatTexts_cons, String.append_assoc]
      · rw [h3, e2]

theorem pendingFreeFor_not_last (r : Role) (s : GState)
    (h : pendingFreeFor r s.messages = true) :
    ∀ a, s.messages.getLast? = some a → ¬(a.role = r ∧ a.pending = true) := by
  intro a ha
  have hmem : a ∈ s.messages := List.mem_of_mem_getLast? ha
  have := List.all_eq_true.mp h a hmem
  intro hc
  rw [hc.1, hc.2] at this
  simp at this

theorem frags_new (r : Role) (hr : r = Role.user ∨ r = Role.model) :
    ∀ (ts : List String) (s : GState),
    pendingFreeFor r s.messages = true → bufOf r s = "" →
    concatTexts ts ≠ "" →
    (run s (fragEvs r ts)).messages
        = s.messages ++ [newMsg s.nextId r (concatTexts ts)] := by
  intro ts
  induction ts with
  | nil =>
    intro s _ _ hne
    exact absurd rfl hne
  | cons t ts ih =>
    intro s hfree hbuf hne
    rw [fragEvs_cons, run_cons, step_frag r hr 0 t s]
    by_cases ht : t = ""
    · subst ht
      rw [fragStep_empty]
      rw [concatTexts_cons, String.empty_append] at hne ⊢
      exact ih s hfree hbuf hne
    · obtain ⟨e1, e2, e3⟩ :=
        fragStep_new r hr t ht s (pendingFreeFor_not_last r s hfree)
      obtain ⟨h1, _, _⟩ :=
        frags_extend r hr ts (fragStep r t s) s.messages
          (newMsg s.nextId r (bufOf r s ++ t)) e1 rfl rfl (by rw [e3]; rfl)
      rw [h1]
      rw [show (newMsg s.nextId r (bufOf r s ++ t)).text = bufOf r s ++ t from rfl]
      rw [hbuf, String.empty_append, concatTexts_cons]
      rfl

theorem map_id_text (l : List Message) (last : Message) (b : String) :
    (l ++ [{ last with text := b }]).map Message.id = (l ++ [last]).map Message.id := by
  simp

theorem map_msig_text (l : List Message) (last : Message) (b : String) :
    (l ++ [{ last with text := b }]).map msig = (l ++ [last]).map msig := by
  simp [msig]

theorem pendingFreeFor_text (r : Role) (l : List Message) (last : Message) (b : String) :
    pendingFreeFor r (l ++ [{ last with text := b }])
      = pendingFreeFor r (l ++ [last]) := by
  simp [pendingFreeFor]

theorem pendingFreeFor_snoc_other (r2 r : Role) (h : r ≠ r2) (l : List Message)
    (mg : Message) (hrole : mg.role = r)
    (hf : pendingFreeFor r2 l = true) : pendingFreeFor r2 (l ++ [mg]) = true := by
  rw [pendingFreeFor, List.all_append]
  rw [pendingFreeFor] at hf
  rw [hf]
  simp [hrole, h]

theorem pendingFreeFor_finalize (r : Role) (l : List Message) :
    pendingFreeFor r (finalizeAll l) = true := by
  simp [pendingFreeFor, finalizeAll, List.all_eq_true]

theorem idsChain_snoc (l : List Message) (mg : Message) (h1 : idsChain l)
    (h2 : ∀ x ∈ l, x.id < mg.id) : idsChain (l ++ [mg]) := by
  rw [idsChain, List.map_append, List.chain'_append]
  refine ⟨h1, List.chain'_singleton _, ?_⟩
  intro x hx y hy
  simp only [List.map_cons, List.map_nil, List.head?_cons, Option.mem_def,
    Option.some.injEq] at hy
  subst hy
  have hx' := List.mem_of_mem_getLast? hx
  obtain ⟨mm, hmm, rfl⟩ := List.mem_map.mp hx'
  exact h2 mm hmm

theorem tailAlt_snoc (sigs : List (Bool × Role)) (q : Bool × Role)
    (h1 : pendingTailAlt sigs = true)
    (h2 : ∀ p, sigs.getLast? = some p → p.1 = true → q.1 = true ∧ p.2 ≠ q.2) :
    pendingTailAlt (sigs ++ [q]) = true := by
  induction sigs with
  | nil => rfl
  | cons a rest ih =>
    cases rest with
    | nil =>
      show pendingTailAlt [a, q] = true
      by_cases ha : a.1 = true
      · obtain ⟨hq1, hq2⟩ := h2 a rfl ha
        simp [pendingTailAlt, ha, hq1, hq2]
      · simp [pendingTailAlt, Bool.eq_false_iff.mpr ha]
    | cons b rest' =>
      rw [pendingTailAlt, Bool.and_eq_true] at h1
      obtain ⟨hab, hrest⟩ := h1
      have hih := ih hrest (fun p hp => h2 p (by rw [List.getLast?_cons_cons]; exact hp))
      show pendingTailAlt (a :: b :: (rest' ++ [q])) = true
      rw [pendingTailAlt, Bool.and_eq_true]
      exact ⟨hab, hih⟩

theorem tailAlt_nopending (sigs : List (Bool × Role))
    (h : ∀ p ∈ sigs, p.1 = false) : pendingTailAlt sigs = true := by
  induction sigs with
  | nil => rfl
  | cons a rest ih =>
    cases rest with
    | nil => rfl
    | cons b rest' =>
      rw [pendingTailAlt, Bool.and_eq_true]
      refine ⟨?_, ih (fun p hp => h p (List.mem_cons_of_mem a hp))⟩
      have := h a (List.mem_cons_self a _)
      simp [this]

theorem applyFrag_bufs (r : Role) (b : String) (s : GState) :
    (applyFrag r b s).currentInput = s.currentInput
    ∧ (applyFrag r b s).currentOutput = s.currentOutput := by
  unfold applyFrag
  split
  · split
    · exact ⟨rfl, rfl⟩
    · exact ⟨rfl, rfl⟩
  · exact ⟨rfl, rfl⟩

theorem fragStep_bufOther (r : Role) (t : String) (s : GState) (r2 : Role)
    (h : r2 ≠ r) : bufOf r2 (fragStep r t s) = bufOf r2 s := by
  by_cases ht : t = ""
  · rw [ht, fragStep_empty]
  · unfold fragStep
    rw [if_neg ht]
    cases r2 with
    | system => rfl
    | model =>
      cases r with
      | model => exact absurd rfl h
      | user => exact (applyFrag_bufs _ _ _).2
      | system => exact (applyFrag_bufs _ _ _).2
    | user =>
      cases r with
      | user => exact absurd rfl h
      | model => exact (applyFrag_bufs _ _ _).1
      | system => exact (applyFrag_bufs _ _ _).1

theorem inv_fragStep (r : Role) (hr : r = Role.user ∨ r = Role.model)
    (t : String) (s : GState) (h : Inv s) : Inv (fragStep r t s) := by
  obtain ⟨hchain, halt, hlt, hout, hin⟩ := h
  by_cases ht : t = ""
  · rw [ht, fragStep_empty]
    exact ⟨hchain, halt, hlt, hout, hin⟩
  have hbne : bufOf r s ++ t ≠ "" := str_append_ne_empty _ _ ht
  by_cases hps : ∀ a, s.messages.getLast? = some a → ¬(a.role = r ∧ a.pending = true)
  · obtain ⟨e1, e2, e3⟩ := fragStep_new r hr t ht s hps
    refine ⟨?_, ?_, ?_, ?_, ?_⟩
    · rw [e1]
      exact idsChain_snoc _ _ hchain (fun x hx => hlt x hx)
    · rw [e1, List.map_append]
      simp only [List.map_cons, List.map_nil]
      refine tailAlt_snoc _ _ halt ?_
      intro p hp hp1
      rw [List.getLast?_map] at hp
      cases hl : s.messages.getLast? with
      | none => rw [hl] at hp; simp at hp
      | some a =>
        rw [hl] at hp
        simp only [Option.map_some'] at hp
        have hpa : p = msig a := by injection hp with h2; exact h2.symm
        subst hpa
        exact ⟨rfl, fun hc => hps a hl ⟨hc, hp1⟩⟩
    · rw [e1, e2]
      intro m hm
      rcases List.mem_append.mp hm with hm' | hm'
      · exact Nat.lt_succ_of_lt (hlt m hm')
      · rw [List.mem_singleton.mp hm']
        exact Nat.lt_succ_self _
    · intro hb
      rcases hr with rfl | rfl
      · rw [fragStep_bufOther Role.user t s Role.model (by decide)] at hb
        rw [e1]
        exact pendingFreeFor_snoc_other Role.model Role.user (by decide) _ _ rfl (hout hb)
      · rw [e3] at hb
        exact absurd hb hbne
    · intro hb
      rcases hr with rfl | rfl
      · rw [e3] at hb
        exact absurd hb hbne
      · rw [fragStep_bufOther Role.model t s Role.user (by decide)] at hb
        rw [e1]
        exact pendingFreeFor_snoc_other Role.user Role.model (by decide) _ _ rfl (hin hb)
  · push_neg at hps
    obtain ⟨last, hl, hlp⟩ := hps
    obtain ⟨hrole, hp⟩ := hlp
    have hm : s.messages = s.messages.dropLast ++ [last] :=
      (List.dropLast_append_getLast? last hl).symm
    obtain ⟨e1, e2, e3⟩ :=
      fragStep_extend r hr t ht s s.messages.dropLast last hm hrole hp
    refine ⟨?_, ?_, ?_, ?_, ?_⟩
    · rw [idsChain, e1, map_id_text, ← hm]
      exact hchain
    · rw [e1, map_msig_text, ← hm]
      exact halt
    · rw [e1, e2]
      intro m hmem
      rcases List.mem_append.mp hmem with hm' | hm'
      · exact hlt m (by rw [hm]; exact List.mem_append_left _ hm')
      · rw [List.mem_singleton.mp hm']
        exact hlt last (by rw [hm]; exact List.mem_append_right _ (List.mem_singleton_self _))
    · intro hb
      rcases hr with rfl | rfl
      · rw [fragStep_bufOther Role.user t s Role.model (by decide)] at hb
        rw [e1, pendingFreeFor_text, ← hm]
        exact hout hb
      · rw [e3] at hb
        exact absurd hb hbne
    · intro hb
      rcases hr with rfl | rfl
      · rw [e3] at hb
        exact absurd hb hbne
      · rw [fragStep_bufOther Role.model t s Role.user (by decide)] at hb
        rw [e1, pendingFreeFor_text, ← hm]
        exact hin hb

theorem inv_handleText (r : Role) (hr : r = Role.user ∨ r = Role.model)
    (o : Option String) (s : GState) (h : Inv s) : Inv (handleText r o s) := by
  cases o with
  | none => exact h
  | some t => exact inv_fragStep r hr t s h

theorem inv_handleAudio (now : ℚ) (o : Option ℚ) (s : GState) (h : Inv s) :
    Inv (handleAudio now o s) := by
  cases o with
  | none => exact h
  | some d =>
    show Inv (if s.outputCtx = true then scheduleAudio now d s else s)
    by_cases hc : s.outputCtx = true
    · rw [if_pos hc]
      exact h
    · rw [if_neg hc]
      exact h

theorem finalize_map_id (l : List Message) :
    (finalizeAll l).map Message.id = l.map Message.id := by
  simp [finalizeAll, List.map_map]

theorem finalize_sig_false (l : List Message) :
    ∀ p ∈ (finalizeAll l).map msig, p.1 = false := by
  intro p hp
  obtain ⟨m, hm, rfl⟩ := List.mem_map.mp hp
  obtain ⟨m0, _, rfl⟩ := List.mem_map.mp hm
  rfl

theorem inv_finalized (s : GState) (l2 : List Message) (n2 : Nat)
    (hmsg : l2 = finalizeAll s.messages) (hn : n2 = s.nextId) (h : Inv s) :
    idsChain l2
    ∧ pendingTailAlt (l2.map msig) = true
    ∧ msgIdsLt n2 l2
    ∧ pendingFreeFor Role.model l2 = true
    ∧ pendingFreeFor Role.user l2 = true := by
  obtain ⟨hchain, _, hlt, _, _⟩ := h
  subst hmsg hn
  refine ⟨?_, ?_, ?_, pendingFreeFor_finalize _ _, pendingFreeFor_finalize _ _⟩
  · rw [idsChain, finalize_map_id]
    exact hchain
  · exact tailAlt_nopending _ (finalize_sig_false s.messages)
  · intro m hm
    obtain ⟨m0, hm0, rfl⟩ := List.mem_map.mp hm
    exact hlt m0 hm0

theorem inv_handleTurnComplete (b : Bool) (s : GState) (h : Inv s) :
    Inv (handleTurnComplete b s) := by
  cases b with
  | false => exact h
  | true =>
    show Inv { s with messages := finalizeAll s.messages,
                      currentInput := "", currentOutput := "" }
    obtain ⟨h1, h2, h3, h4, h5⟩ := inv_finalized s _ _ rfl rfl h
    exact ⟨h1, h2, h3, fun _ => h4, fun _ => h5⟩

theorem inv_handleInterrupted (now : ℚ) (b : Bool) (s : GState) (h : Inv s) :
    Inv (handleInterrupted now b s) := by
  cases b with
  | false => exact h
  | true =>
    show Inv { s with
      stopped := s.stopped ++ s.sources,
      sources := [],
      nextStartTime := if s.outputCtx = true then now else s.nextStartTime,
      messages := finalizeAll s.messages,
      currentInput := "", currentOutput := "" }
    obtain ⟨h1, h2, h3, h4, h5⟩ := inv_finalized s _ _ rfl rfl h
    exact ⟨h1, h2, h3, fun _ => h4, fun _ => h5⟩

theorem inv_onmessage (now : ℚ) (m : SMsg) (s : GState) (h : Inv s) :
    Inv (onmessage now m s) :=
  inv_handleInterrupted now m.interrupted _
    (inv_handleTurnComplete m.turnComplete _
      (inv_handleText Role.user (Or.inl rfl) m.inputText _
        (inv_handleText Role.model (Or.inr rfl) m.outputText _
          (inv_handleAudio now m.audioDur s h))))

theorem inv_step (s : GState) (e : Ev) (h : Inv s) : Inv (step s e) := by
  cases e with
  | srv now m => exact inv_onmessage now m s h
  | ended i => exact h

theorem inv_run : ∀ (es : List Ev) (s : GState), Inv s → Inv (run s es) := by
  intro es
  induction es with
  | nil => intro s h; exact h
  | cons e es ih => intro s h; exact ih (step s e) (inv_step s e h)

theorem inv_init : Inv init := by
  refine ⟨List.chain'_nil, rfl, ?_, fun _ => rfl, fun _ => rfl⟩
  intro m hm
  exact absurd hm (List.not_mem_nil m)

theorem finalizeAll_pending (l : List Message) :
    ∀ x ∈ finalizeAll l, x.pending = false := by
  intro x hx
  obtain ⟨m, _, rfl⟩ := List.mem_map.mp hx
  rfl

theorem applyFrag_outputCtx (r : Role) (b : String) (s : GState) :
    (applyFrag r b s).outputCtx = s.outputCtx := by
  unfold applyFrag
  split
  · split <;> rfl
  · rfl

theorem setBuf_outputCtx (r : Role) (b : String) (s : GState) :
    (setBuf r b s).outputCtx = s.outputCtx := by
  cases r <;> rfl

theorem fragStep_outputCtx (r : Role) (t : String) (s : GState) :
    (fragStep r t s).outputCtx = s.outputCtx := by
  unfold fragStep
  split
  · rfl
  · rw [setBuf_outputCtx, applyFrag_outputCtx]

theorem handleText_outputCtx (r : Role) (o : Option String) (s : GState) :
    (handleText r o s).outputCtx = s.outputCtx := by
  cases o with
  | none => rfl
  | some t => exact fragStep_outputCtx r t s

theorem handleAudio_outputCtx (now : ℚ) (o : Option ℚ) (s : GState) :
    (handleAudio now o s).outputCtx = s.outputCtx := by
  cases o with
  | none => rfl
  | some d =>
    show (if s.outputCtx = true then scheduleAudio now d s else s).outputCtx = _
    split <;> rfl

theorem handleTurnComplete_outputCtx (b : Bool) (s : GState) :
    (handleTurnComplete b s).outputCtx = s.outputCtx := by
  cases b <;> rfl

theorem handleInterrupted_outputCtx (now : ℚ) (b : Bool) (s : GState) :
    (handleInterrupted now b s).outputCtx = s.outputCtx := by
  cases b <;> rfl

theorem step_outputCtx (s : GState) (e : Ev) :
    (step s e).outputCtx = s.outputCtx := by
  cases e with
  | ended i => rfl
  | srv now m =>
    show (onmessage now m s).outputCtx = s.outputCtx
    unfold onmessage
    rw [handleInterrupted_outputCtx, handleTurnComplete_outputCtx,
      handleText_outputCtx, handleText_outputCtx, handleAudio_outputCtx]

theorem run_outputCtx : ∀ (es : List Ev) (s : GState),
    (run s es).outputCtx = s.outputCtx := by
  intro es
  induction es with
  | nil => intro s; rfl
  | cons e es ih => intro s; rw [run_cons, ih, step_outputCtx]

theorem applyFrag_sched (r : Role) (b : String) (s : GState) :
    (applyFrag r b s).nextStartTime = s.nextStartTime
    ∧ (applyFrag r b s).playLog = s.playLog := by
  unfold applyFrag
  split
  · split <;> exact ⟨rfl, rfl⟩
  · exact ⟨rfl, rfl⟩

theorem setBuf_sched (r : Role) (b : String) (s : GState) :
    (setBuf r b s).nextStartTime = s.nextStartTime
    ∧ (setBuf r b s).playLog = s.playLog := by
  cases r <;> exact ⟨rfl, rfl⟩

theorem fragStep_sched (r : Role) (t : String) (s : GState) :
    (fragStep r t s).nextStartTime = s.nextStartTime
    ∧ (fragStep r t s).playLog = s.playLog := by
  unfold fragStep
  split
  · exact ⟨rfl, rfl⟩
  · exact ⟨((setBuf_sched _ _ _).1).trans (applyFrag_sched _ _ _).1,
      ((setBuf_sched _ _ _).2).trans (applyFrag_sched _ _ _).2⟩

theorem handleText_sched (r : Role) (o : Option String) (s : GState) :
    (handleText r o s).nextStartTime = s.nextStartTime
    ∧ (handleText r o s).playLog = s.playLog := by
  cases o with
  | none => exact ⟨rfl, rfl⟩
  | some t => exact fragStep_sched r t s

theorem handleTurnComplete_sched (b : Bool) (s : GState) :
    (handleTurnComplete b s).nextStartTime = s.nextStartTime
    ∧ (handleTurnComplete b s).playLog = s.playLog := by
  cases b <;> exact ⟨rfl, rfl⟩

theorem quiet_step (s : GState) (e : Ev) (h : quiet e = true) :
    (step s e).nextStartTime = s.nextStartTime
    ∧ (step s e).playLog = s.playLog := by
  cases e with
  | ended i => exact ⟨rfl, rfl⟩
  | srv now m =>
    have h' : m.audioDur = none ∧ m.interrupted = false := by
      simpa [quiet, Option.isNone_iff_eq_none] using h
    obtain ⟨ha, hi⟩ := h'
    show (onmessage now m s).nextStartTime = _ ∧ (onmessage now m s).playLog = _
    unfold onmessage
    rw [ha, hi]
    constructor
    · rw [show handleInterrupted now false (handleTurnComplete m.turnComplete
          (handleText Role.user m.inputText (handleText Role.model m.outputText
            (handleAudio now none s)))) = handleTurnComplete m.turnComplete
          (handleText Role.user m.inputText (handleText Role.model m.outputText s))
          from rfl]
      rw [(handleTurnComplete_sched _ _).1, (handleText_sched _ _ _).1,
        (handleText_sched _ _ _).1]
    · rw [show handleInterrupted now false (handleTurnComplete m.turnComplete
          (handleText Role.user m.inputText (handleText Role.model m.outputText
            (handleAudio now none s)))) = handleTurnComplete m.turnComplete
          (handleText Role.user m.inputText (handleText Role.model m.outputText s))
          from rfl]
      rw [(handleTurnComplete_sched _ _).2, (handleText_sched _ _ _).2,
        (handleText_sched _ _ _).2]

theorem run_quiet : ∀ (es : List Ev), (∀ e ∈ es, quiet e = true) → ∀ (s : GState),
    (run s es).nextStartTime = s.nextStartTime
    ∧ (run s es).playLog = s.playLog := by
  intro es
  induction es with
  | nil => intro _ s; exact ⟨rfl, rfl⟩
  | cons e es ih =>
    intro h s
    rw [run_cons]
    obtain ⟨q1, q2⟩ := quiet_step s e (h e (List.mem_cons_self e es))
    obtain ⟨r1, r2⟩ := ih (fun x hx => h x (List.mem_cons_of_mem e hx)) (step s e)
    exact ⟨r1.trans q1, r2.trans q2⟩

theorem step_audio (now d : ℚ) (s : GState) (hctx : s.outputCtx = true) :
    step s (Ev.srv now ({ audioDur := some d } : SMsg)) = scheduleAudio now d s := by
  show (if s.outputCtx = true then scheduleAudio now d s else s) = scheduleAudio now d s
  rw [if_pos hctx]

theorem onmessage_completes (now : ℚ) (m : SMsg) (s : GState)
    (hm : m.turnComplete = true ∨ m.interrupted = true) :
    (∀ x ∈ (onmessage now m s).messages, x.pending = false)
    ∧ (onmessage now m s).currentInput = ""
    ∧ (onmessage now m s).currentOutput = "" := by
  unfold onmessage
  cases hi : m.interrupted with
  | true => exact ⟨finalizeAll_pending _, rfl, rfl⟩
  | false =>
    cases htc : m.turnComplete with
    | false =>
      rw [hi, htc] at hm
      simp at hm
    | true => exact ⟨finalizeAll_pending _, rfl, rfl⟩

theorem frag_onto_final (r : Role) (hr : r = Role.user ∨ r = Role.model)
    (t : String) (ht : t ≠ "") (now2 : ℚ) (s1 : GState)
    (hfin : ∀ x ∈ s1.messages, x.pending = false)
    (hbuf : bufOf r s1 = "") :
    (step s1 (Ev.srv now2 (fragSMsg r t))).messages
      = s1.messages ++ [newMsg s1.nextId r t] := by
  rw [step_frag r hr now2 t s1]
  have hlast : ∀ a, s1.messages.getLast? = some a → ¬(a.role = r ∧ a.pending = true) := by
    intro a ha hc
    have := hfin a (List.mem_of_mem_getLast? ha)
    rw [this] at hc
    exact Bool.false_ne_true hc.2
  obtain ⟨e1, _, _⟩ := fragStep_new r hr t ht s1 hlast
  rw [e1, hbuf, String.empty_append]

/-- Claim C1: for every sequence of transcript fragments all tagged with a
single speaker role, delivered with no intervening turn-complete or
interruption event, starting from a reachable state whose per-role
accumulation buffer is empty, the accumulator appends exactly one new
partial message for that role whose text is the concatenation of the
fragments' texts in arrival order, and the resulting transcript contains
exactly one partial message of that role. -/
theorem claim_c1 (r : Role) (hr : r = Role.user ∨ r = Role.model)
    (es : List Ev) (ts : List String)
    (hbuf : bufOf r (run init es) = "")
    (hne : concatTexts ts ≠ "") :
    (run (run init es) (fragEvs r ts)).messages
      = (run init es).messages
        ++ [newMsg (run init es).nextId r (concatTexts ts)]
    ∧ (run (run init es) (fragEvs r ts)).messages.countP
        (fun m => decide (m.role = r) && m.pending) = 1 := by
  obtain ⟨_, _, _, hout, hin⟩ := inv_run es init inv_init
  have hfree : pendingFreeFor r (run init es).messages = true := by
    rcases hr with rfl | rfl
    · exact hin hbuf
    · exact hout hbuf
  have hmain := frags_new r hr ts (run init es) hfree hbuf hne
  refine ⟨hmain, ?_⟩
  rw [hmain, List.countP_append]
  have h0 : (run init es).messages.countP
      (fun m => decide (m.role = r) && m.pending) = 0 := by
    rw [List.countP_eq_zero]
    intro a ha
    have h2 := List.all_eq_true.mp hfree a ha
    rw [Bool.not_eq_true'] at h2
    simp [h2]
  rw [h0]
  simp [newMsg]

/-- Witness for C1 at a concrete input: from the fresh session state, the
fragments "Wel" then "come." for the model role yield a single partial
model message with text "Welcome.". -/
theorem claim_c1_witness :
    (run (run init []) (fragEvs Role.model (["Wel", "come."]))).messages
      = (run init []).messages
        ++ [newMsg (run init []).nextId Role.model (concatTexts (["Wel", "come."]))]
    ∧ (run (run init []) (fragEvs Role.model (["Wel", "come."]))).messages.countP
        (fun m => decide (m.role = Role.model) && m.pending) = 1 :=
  claim_c1 Role.model (Or.inr rfl) [] (["Wel", "come."]) (by decide) (by decide)

/-- Claim C2: after processing a server message carrying turn-complete or
interrupted, every transcript message is final and both per-role buffers are
empty; the next fragment of either speaker role starts a new message whose
text is exactly that fragment. -/
theorem claim_c2 (s : GState) (now now2 : ℚ) (m : SMsg)
    (hm : m.turnComplete = true ∨ m.interrupted = true)
    (r : Role) (hr : r = Role.user ∨ r = Role.model)
    (t : String) (ht : t ≠ "") :
    (∀ x ∈ (step s (Ev.srv now m)).messages, x.pending = false)
    ∧ (step s (Ev.srv now m)).currentInput = ""
    ∧ (step s (Ev.srv now m)).currentOutput = ""
    ∧ (step (step s (Ev.srv now m)) (Ev.srv now2 (fragSMsg r t))).messages
        = (step s (Ev.srv now m)).messages
          ++ [newMsg (step s (Ev.srv now m)).nextId r t] := by
  obtain ⟨h1, h2, h3⟩ := onmessage_completes now m s hm
  refine ⟨h1, h2, h3, ?_⟩
  refine frag_onto_final r hr t ht now2 _ h1 ?_
  rcases hr with rfl | rfl
  · exact h2
  · exact h3

/-- Witness for C2 at a concrete input: a turn-complete message on the fresh
state leaves the buffers empty, and a following model fragment "Hi" starts a
new message with exactly that text. -/
theorem claim_c2_witness :
    (step init (Ev.srv 0 ({ turnComplete := true } : SMsg))).currentInput = ""
    ∧ (step init (Ev.srv 0 ({ turnComplete := true } : SMsg))).currentOutput = ""
    ∧ (step (step init (Ev.srv 0 ({ turnComplete := true } : SMsg)))
          (Ev.srv 0 (fragSMsg Role.model ("Hi")))).messages
        = (step init (Ev.srv 0 ({ turnComplete := true } : SMsg))).messages
          ++ [newMsg (step init (Ev.srv 0 ({ turnComplete := true } : SMsg))).nextId
                Role.model ("Hi")] := by
  obtain ⟨_, h2, h3, h4⟩ :=
    claim_c2 init 0 0 ({ turnComplete := true } : SMsg) (Or.inl rfl)
      Role.model (Or.inr rfl) ("Hi") (by decide)
  exact ⟨h2, h3, h4⟩

/-- Counterexample to claim C3 as stated: delivering the model fragment "A",
the user fragment "B" and then the model fragment "C" from the fresh state
leaves two partial model messages in the transcript, so the transcript does
not contain at most one partial message per speaker role. -/
theorem claim_c3_counterexample :
    ¬ ((run init
        [Ev.srv 0 (fragSMsg Role.model ("A")),
         Ev.srv 0 (fragSMsg Role.user ("B")),
         Ev.srv 0 (fragSMsg Role.model ("C"))]).messages.countP
          (fun m => decide (m.role = Role.model) && m.pending) ≤ 1) := by
  decide

theorem mkey_ext_trans {A B C : List (Nat × Role × Nat)}
    (h1 : ∃ t, B = A ++ t) (h2 : ∃ t, C = B ++ t) : ∃ t, C = A ++ t := by
  obtain ⟨t1, rfl⟩ := h1
  obtain ⟨t2, rfl⟩ := h2
  exact ⟨t1 ++ t2, List.append_assoc _ _ _⟩

theorem applyFrag_mkey (r : Role) (b : String) (s : GState) :
    ∃ tail, (applyFrag r b s).messages.map mkey = s.messages.map mkey ++ tail := by
  unfold applyFrag
  cases hl : s.messages.getLast? with
  | none => exact ⟨[mkey (newMsg s.nextId r b)], by simp⟩
  | some a =>
    by_cases hc : a.role = r ∧ a.pending = true
    · simp only [if_pos hc]
      refine ⟨[], ?_⟩
      rw [List.append_nil]
      conv_rhs => rw [(List.dropLast_append_getLast? a hl).symm]
      simp [mkey]
    · simp only [if_neg hc]
      exact ⟨[mkey (newMsg s.nextId r b)], by simp⟩

theorem fragStep_mkey (r : Role) (t : String) (s : GState) :
    ∃ tail, (fragStep r t s).messages.map mkey = s.messages.map mkey ++ tail := by
  unfold fragStep
  split
  · exact ⟨[], (List.append_nil _).symm⟩
  · rw [setBuf_messages]
    exact applyFrag_mkey r _ s

theorem handleText_mkey (r : Role) (o : Option String) (s : GState) :
    ∃ tail, (handleText r o s).messages.map mkey = s.messages.map mkey ++ tail := by
  cases o with
  | none => exact ⟨[], (List.append_nil _).symm⟩
  | some t => exact fragStep_mkey r t s

theorem handleAudio_mkey (now : ℚ) (o : Option ℚ) (s : GState) :
    ∃ tail, (handleAudio now o s).messages.map mkey = s.messages.map mkey ++ tail := by
  cases o with
  | none => exact ⟨[], (List.append_nil _).symm⟩
  | some d =>
    show ∃ tail,
      (if s.outputCtx = true then scheduleAudio now d s else s).messages.map mkey = _
    split <;> exact ⟨[], (List.append_nil _).symm⟩

theorem finalize_map_mkey (l : List Message) :
    (finalizeAll l).map mkey = l.map mkey := by
  simp [finalizeAll, List.map_map, mkey]

theorem handleTurnComplete_mkey (b : Bool) (s : GState) :
    ∃ tail, (handleTurnComplete b s).messages.map mkey
      = s.messages.map mkey ++ tail := by
  cases b with
  | false => exact ⟨[], (List.append_nil _).symm⟩
  | true =>
    refine ⟨[], ?_⟩
    rw [List.append_nil]
    exact finalize_map_mkey s.messages

theorem handleInterrupted_mkey (now : ℚ) (b : Bool) (s : GState) :
    ∃ tail, (handleInterrupted now b s).messages.map mkey
      = s.messages.map mkey ++ tail := by
  cases b with
  | false => exact ⟨[], (List.append_nil _).symm⟩
  | true =>
    refine ⟨[], ?_⟩
    rw [List.append_nil]
    exact finalize_map_mkey s.messages

theorem step_mkey (s : GState) (e : Ev) :
    ∃ tail, (step s e).messages.map mkey = s.messages.map mkey ++ tail := by
  cases e with
  | ended i => exact ⟨[], (List.append_nil _).symm⟩
  | srv now m =>
    show ∃ tail, (onmessage now m s).messages.map mkey = _
    unfold onmessage
    exact mkey_ext_trans
      (mkey_ext_trans
        (mkey_ext_trans
          (mkey_ext_trans (handleAudio_mkey now m.audioDur s)
            (handleText_mkey Role.model m.outputText _))
          (handleText_mkey Role.user m.inputText _))
        (handleTurnComplete_mkey m.turnComplete _))
      (handleInterrupted_mkey now m.interrupted _)

/-- Claim C3 (amended): message ordering is insertion order — processing any
event only appends new messages at the end of the transcript and mutates
existing messages in place (their id, role and creation timestamp are
preserved positionally; only the text and the partial flag ever change),
never removing or reordering them — and in every reachable state the
partial messages form a contiguous suffix of the transcript in which
adjacent messages have distinct roles; when fragment roles interleave
without an intervening turn-complete or interruption, the transcript may
contain more than one (non-adjacent) partial message of the same role. -/
theorem claim_c3 :
    (∀ (s : GState) (e : Ev), ∃ tail,
        (step s e).messages.map mkey = s.messages.map mkey ++ tail)
    ∧ ∀ (es : List Ev),
        pendingTailAlt ((run init es).messages.map msig) = true :=
  ⟨fun s e => step_mkey s e,
   fun es => (inv_run es init inv_init).2.1⟩

/-- Claim C4: an arriving decoded audio unit is scheduled at
`max(nextStartTime, currentTime)` and `nextStartTime` advances by its
duration; for two units scheduled consecutively with no intervening audio or
interruption event, the second unit's start time is at least the first
unit's start time plus its duration. -/
theorem claim_c4 (s : GState) (hctx : s.outputCtx = true) (nowA dA : ℚ)
    (es : List Ev) (hq : ∀ e ∈ es, quiet e = true) (nowB dB : ℚ) :
    (step s (Ev.srv nowA ({ audioDur := some dA } : SMsg))).nextStartTime
        = max s.nextStartTime nowA + dA
    ∧ (step (run (step s (Ev.srv nowA ({ audioDur := some dA } : SMsg))) es)
          (Ev.srv nowB ({ audioDur := some dB } : SMsg))).playLog
        = s.playLog ++ [(max s.nextStartTime nowA, dA),
            (max (run (step s (Ev.srv nowA ({ audioDur := some dA } : SMsg)))
              es).nextStartTime nowB, dB)]
    ∧ max s.nextStartTime nowA + dA
        ≤ max (run (step s (Ev.srv nowA ({ audioDur := some dA } : SMsg)))
            es).nextStartTime nowB := by
  rw [step_audio nowA dA s hctx]
  obtain ⟨hq1, hq2⟩ := run_quiet es hq (scheduleAudio nowA dA s)
  have hctx2 : (run (scheduleAudio nowA dA s) es).outputCtx = true := by
    rw [run_outputCtx]
    exact hctx
  rw [step_audio nowB dB _ hctx2]
  refine ⟨rfl, ?_, ?_⟩
  · show (run (scheduleAudio nowA dA s) es).playLog
        ++ [(max (run (scheduleAudio nowA dA s) es).nextStartTime nowB, dB)] = _
    rw [hq2]
    show (s.playLog ++ [(max s.nextStartTime nowA, dA)]) ++ _ = _
    rw [List.append_assoc]
    rfl
  · rw [hq1]
    show max s.nextStartTime nowA + dA ≤ max (max s.nextStartTime nowA + dA) nowB
    exact le_max_left _ _

/-- Witness for C4 at a concrete input: two audio units of durations 1 and 2
arriving at playback clock 0 on the fresh state are scheduled at starts 0
and 1, back to back. -/
theorem claim_c4_witness :
    (step init (Ev.srv 0 ({ audioDur := some 1 } : SMsg))).nextStartTime
        = max init.nextStartTime 0 + 1
    ∧ (step (run (step init (Ev.srv 0 ({ audioDur := some 1 } : SMsg))) [])
          (Ev.srv 0 ({ audioDur := some 2 } : SMsg))).playLog
        = init.playLog ++ [(max init.nextStartTime 0, 1),
            (max (run (step init (Ev.srv 0 ({ audioDur := some 1 } : SMsg)))
              []).nextStartTime 0, 2)]
    ∧ max init.nextStartTime 0 + 1
        ≤ max (run (step init (Ev.srv 0 ({ audioDur := some 1 } : SMsg)))
            []).nextStartTime 0 :=
  claim_c4 init rfl 0 1 [] (by simp) 0 2

/-- Claim C5: an interruption event stops every playback unit in the tracked
set, leaves the tracked set empty, and resets the playback timeline to the
current playback clock. -/
theorem claim_c5 (s : GState) (now : ℚ) (hctx : s.outputCtx = true) :
    (step s (Ev.srv now ({ interrupted := true } : SMsg))).sources = []
    ∧ (∀ i ∈ s.sources,
        i ∈ (step s (Ev.srv now ({ interrupted := true } : SMsg))).stopped)
    ∧ (step s (Ev.srv now ({ interrupted := true } : SMsg))).nextStartTime = now := by
  refine ⟨rfl, ?_, ?_⟩
  · intro i hi
    show i ∈ s.stopped ++ s.sources
    exact List.mem_append_right _ hi
  · show (if s.outputCtx = true then now else s.nextStartTime) = now
    rw [if_pos hctx]

/-- Witness for C5 at a concrete input: after scheduling one audio unit on
the fresh state, an interruption at playback clock 5 empties the tracked
set, stops the scheduled unit and resets the timeline to 5. -/
theorem claim_c5_witness :
    (step (step init (Ev.srv 0 ({ audioDur := some 1 } : SMsg)))
        (Ev.srv 5 ({ interrupted := true } : SMsg))).sources = []
    ∧ 0 ∈ (step (step init (Ev.srv 0 ({ audioDur := some 1 } : SMsg)))
        (Ev.srv 5 ({ interrupted := true } : SMsg))).stopped
    ∧ (step (step init (Ev.srv 0 ({ audioDur := some 1 } : SMsg)))
        (Ev.srv 5 ({ interrupted := true } : SMsg))).nextStartTime = 5 := by
  obtain ⟨h1, h2, h3⟩ :=
    claim_c5 (step init (Ev.srv 0 ({ audioDur := some 1 } : SMsg))) 5 (by decide)
  exact ⟨h1, h2 0 (by decide), h3⟩

/-- Claim C6: `disconnect` is idempotent and safe without a prior connect: a
second call in a row finds every resource reference already null and
performs no device, playback or session operations, and a call on the
never-connected initial state performs none either; the embedding of
`disconnect` is a total function, so it never throws. -/
theorem claim_c6 (s : GState) :
    disconnectOps (disconnect s) = []
    ∧ disconnect (disconnect s) = disconnect s
    ∧ disconnectOps initHook = [] := by
  refine ⟨?_, ?_, rfl⟩
  · simp [disconnect, disconnectOps, disconnectRun]
  · simp [disconnect, disconnectRun]

/-- Claim C7: a failure during session acquisition and a mid-session remote
error event each surface exactly one non-empty human-readable error message,
leave the connection flag false, and perform no automatic retry (no session
is re-established; the error callback changes nothing else). -/
theorem claim_c7 (s : GState) (acquired : Bool) (m : Option String) :
    ((connectFailure acquired m s).error = some (errText m connectFallback)
      ∧ errText m connectFallback ≠ ""
      ∧ (connectFailure acquired m s).isConnected = false
      ∧ (connectFailure acquired m s).session = false)
    ∧ ((onerror m s).error = some (errText m errorFallback)
      ∧ errText m errorFallback ≠ ""
      ∧ (onerror m s).isConnected = false
      ∧ (onerror m s).session = s.session
      ∧ (onerror m s).messages = s.messages
      ∧ (onerror m s).mediaStream = s.mediaStream) :=
  ⟨⟨rfl, errText_ne_empty m _ (by decide), rfl, rfl⟩,
   ⟨rfl, errText_ne_empty m _ (by decide), rfl, rfl, rfl, rfl⟩⟩

/-- Claim C8: the loudness value emitted for visualization equals the
root-mean-square amplitude of the frame's samples multiplied by the fixed
gain 5 and clamped to the unit interval, and it always lies in `[0, 1]`. -/
theorem claim_c8 (xs : List ℝ) (_h : xs ≠ []) :
    frameVolume xs = clamp01 (rmsOf xs * 5)
    ∧ 0 ≤ frameVolume xs ∧ frameVolume xs ≤ 1 := by
  have h0 : (0:ℝ) ≤ rmsOf xs * 5 := mul_nonneg (Real.sqrt_nonneg _) (by norm_num)
  have hmin : (0:ℝ) ≤ min 1 (rmsOf xs * 5) := le_min (by norm_num) h0
  refine ⟨?_, hmin, min_le_left _ _⟩
  show min 1 (rmsOf xs * 5) = max 0 (min 1 (rmsOf xs * 5))
  exact (max_eq_right hmin).symm

/-- Witness for C8 at a concrete input: the all-zero one-sample frame. -/
theorem claim_c8_witness :
    frameVolume [0] = clamp01 (rmsOf [0] * 5)
    ∧ 0 ≤ frameVolume [0] ∧ frameVolume [0] ≤ 1 :=
  claim_c8 [0] (by simp)

/-- Claim C9: the mid-session error and close callbacks only update the
connection flag (and, for errors, the error message); they do not release
the microphone stream, the audio contexts, the script processor, the
tracked playback units or the session handle, and they do not change the
timeline or transcript — those resources are released only by
`disconnect`. -/
theorem claim_c9 (s : GState) (m : Option String) :
    ((onerror m s).inputCtx = s.inputCtx
      ∧ (onerror m s).outputCtx = s.outputCtx
      ∧ (onerror m s).mediaStream = s.mediaStream
      ∧ (onerror m s).processor = s.processor
      ∧ (onerror m s).session = s.session
      ∧ (onerror m s).sources = s.sources
      ∧ (onerror m s).nextStartTime = s.nextStartTime
      ∧ (onerror m s).playLog = s.playLog
      ∧ (onerror m s).stopped = s.stopped
      ∧ (onerror m s).messages = s.messages
      ∧ (onerror m s).currentInput = s.currentInput
      ∧ (onerror m s).currentOutput = s.currentOutput
      ∧ (onerror m s).isConnected = false)
    ∧ ((onclose s).inputCtx = s.inputCtx
      ∧ (onclose s).outputCtx = s.outputCtx
      ∧ (onclose s).mediaStream = s.mediaStream
      ∧ (onclose s).processor = s.processor
      ∧ (onclose s).session = s.session
      ∧ (onclose s).sources = s.sources
      ∧ (onclose s).nextStartTime = s.nextStartTime
      ∧ (onclose s).playLog = s.playLog
      ∧ (onclose s).stopped = s.stopped
      ∧ (onclose s).messages = s.messages
      ∧ (onclose s).error = s.error
      ∧ (onclose s).currentInput = s.currentInput
      ∧ (onclose s).currentOutput = s.currentOutput
      ∧ (onclose s).isConnected = false)
    ∧ ((disconnect s).inputCtx = false
      ∧ (disconnect s).outputCtx = false
      ∧ (disconnect s).mediaStream = false
      ∧ (disconnect s).processor = false
      ∧ (disconnect s).session = false
      ∧ (disconnect s).sources = []) :=
  ⟨⟨rfl, rfl, rfl, rfl, rfl, rfl, rfl, rfl, rfl, rfl, rfl, rfl, rfl⟩,
   ⟨rfl, rfl, rfl, rfl, rfl, rfl, rfl, rfl, rfl, rfl, rfl, rfl, rfl, rfl⟩,
   ⟨rfl, rfl, rfl, rfl, rfl, rfl⟩⟩

/-- Claim C10: `disconnect` leaves the accumulated transcript (and the error
message and playback timeline position) unchanged; it only resets the
connection flag, the volume, the per-role accumulation buffers and the
resource handles, and clears the tracked playback set. -/
theorem claim_c10 (s : GState) :
    (disconnect s).messages = s.messages
    ∧ (disconnect s).error = s.error
    ∧ (disconnect s).nextStartTime = s.nextStartTime
    ∧ (disconnect s).playLog = s.playLog
    ∧ (disconnect s).isConnected = false
    ∧ (disconnect s).volume = 0
    ∧ (disconnect s).currentInput = ""
    ∧ (disconnect s).currentOutput = ""
    ∧ (disconnect s).inputCtx = false
    ∧ (disconnect s).outputCtx = false
    ∧ (disconnect s).mediaStream = false
    ∧ (disconnect s).processor = false
    ∧ (disconnect s).session = false
    ∧ (disconnect s).sources = [] :=
  ⟨rfl, rfl, rfl, rfl, rfl, rfl, rfl, rfl, rfl, rfl, rfl, rfl, rfl, rfl⟩

end VGM
